import Mathlib

/-!
Verification of the temporal windowing / ranking / padding / aggregation engine
of `baseline_transformer.py`.

Modelling conventions:
* A `datetime` is an integer number of seconds since an epoch (`Int`); the
  result of `extract_data.parse_date` is an `Option Int` (`none` = parse failure).
* The external repository collaborators (`loader`, `structured_data_extractor`,
  `extract_data`, `build_graphs`) are modelled by passing their results in as
  arguments: a subject's note collection for the configured type is an
  `Option (List Doc)` (`none` = the category, or its date key, is absent),
  the anchor (operation) date is an `Int`, the encounter history a
  `List Encounter`, and so on.
* Python dictionaries built by insertion are modelled as association lists in
  insertion order.
* Python 3 numeric division is exact on the values involved here, so numeric
  feature values are `ℚ`.
-/

namespace NLPCRT

/-- A note document: the parsed event date (`none` when `parse_date` fails)
and the `free_text` payload. -/
structure Doc where
  date : Option Int
  free_text : String
  deriving DecidableEq

/-- `sec_per_month = 24 * 60 * 60 * (365.0 / 12)` from
`GetConcatenatedNotesTransformer.get_concatenated_notes`; on integer-second
date differences the comparison agrees with the exact value `2628000`. -/
def secPerMonth : Int := 24 * 60 * 60 * 365 / 12

/-- Python truthiness of `self.look_back_months` (`None` and `0` are falsy). -/
def truthyLookBack : Option Nat → Bool
  | none => false
  | some m => m != 0

/-- The note-collecting loop of
`GetConcatenatedNotesTransformer.get_concatenated_notes`: walk the documents in
order; skip documents whose date fails to parse or is not strictly before the
anchor; when `look_back_months` is truthy, also skip (`continue`) documents with
`(operation_date - date).total_seconds() > look_back_months * sec_per_month`. -/
def collectNotes (lbm : Option Nat) (anchor : Int) : List Doc → List String
  | [] => []
  | doc :: rest =>
    match doc.date with
    | none => collectNotes lbm anchor rest
    | some d =>
      if d < anchor then
        if truthyLookBack lbm && decide (((lbm.getD 0 : Nat) : Int) * secPerMonth < anchor - d) then
          collectNotes lbm anchor rest
        else
          doc.free_text :: collectNotes lbm anchor rest
      else
        collectNotes lbm anchor rest

/-- `GetConcatenatedNotesTransformer.get_concatenated_notes`: the collected
pre-anchor notes joined with `'\n\n'.join`; an absent note category (or absent
date key) yields the empty concatenation. -/
def get_concatenated_notes (lbm : Option Nat) (docs : Option (List Doc)) (anchor : Int) : String :=
  String.intercalate "\n\n"
    (match docs with
     | none => []
     | some ds => collectNotes lbm anchor ds)

/-- The qualification predicate of the specification's Event Selector: the date
parses, is strictly before the anchor, and when a lookback is present the
age of the event is at most `lookbackMonths * (365/12) days` in seconds. -/
def qualifies (lbm : Option Nat) (anchor : Int) (doc : Doc) : Bool :=
  match doc.date with
  | none => false
  | some d =>
    decide (d < anchor) &&
      (match lbm with
       | none => true
       | some m => decide (anchor - d ≤ (m : Int) * secPerMonth))

lemma collectNotes_eq_filter (lbm : Option Nat) (anchor : Int)
    (h : ∀ m, lbm = some m → 0 < m) (ds : List Doc) :
    collectNotes lbm anchor ds = (ds.filter (qualifies lbm anchor)).map Doc.free_text := by
  induction ds with
  | nil => simp [collectNotes]
  | cons doc rest ih =>
    cases hd : doc.date with
    | none =>
      simp only [collectNotes, hd, List.filter_cons, qualifies, Bool.false_eq_true, if_neg]
      exact ih
    | some d =>
      cases hl : lbm with
      | none =>
        subst hl
        by_cases hda : d < anchor
        · simp [collectNotes, hd, qualifies, hda, truthyLookBack, ih]
        · simp [collectNotes, hd, qualifies, hda, truthyLookBack, ih]
      | some m =>
        subst hl
        have hm : 0 < m := h m rfl
        have hm' : (m != 0) = true := by simpa [bne_iff_ne] using Nat.pos_iff_ne_zero.mp hm
        by_cases hda : d < anchor
        · by_cases hb : ((m : Int) * secPerMonth < anchor - d)
          · have hb' : ¬ (anchor - d ≤ (m : Int) * secPerMonth) := not_le.mpr hb
            simp [collectNotes, hd, qualifies, hda, truthyLookBack, hm', hb, hb', ih]
          · have hb' : anchor - d ≤ (m : Int) * secPerMonth := not_lt.mp hb
            simp [collectNotes, hd, qualifies, hda, truthyLookBack, hm', hb, hb', ih]
        · simp [collectNotes, hd, qualifies, hda, ih]

/-- C2: for every subject, `get_concatenated_notes` returns the `free_text` of
exactly those documents of the configured note type whose date parses, is
strictly before the anchor, and, when a (positive) `look_back_months` is given,
whose age `anchor - date` is at most `look_back_months * (365/12) days` in
seconds, joined in original record order; documents with unparseable dates are
silently excluded. -/
theorem get_concatenated_notes_spec (lbm : Option Nat) (anchor : Int) (ds : List Doc)
    (h : ∀ m, lbm = some m → 0 < m) :
    get_concatenated_notes lbm (some ds) anchor =
      String.intercalate "\n\n" ((ds.filter (qualifies lbm anchor)).map Doc.free_text) := by
  show String.intercalate "\n\n" (collectNotes lbm anchor ds) = _
  rw [collectNotes_eq_filter lbm anchor h ds]

/-- Witness for C2 at a concrete input: lookback 6 months, one note 5 months
old (kept), one 7 months old (dropped), one unparseable (dropped), one after
the anchor (dropped). -/
theorem get_concatenated_notes_spec_witness :
    get_concatenated_notes (some 6) (some
        [⟨some (100 * secPerMonth - 5 * secPerMonth), "recent"⟩,
         ⟨some (100 * secPerMonth - 7 * secPerMonth), "old"⟩,
         ⟨none, "unparsed"⟩,
         ⟨some (100 * secPerMonth + 1), "post"⟩]) (100 * secPerMonth) =
      String.intercalate "\n\n"
        (([(⟨some (100 * secPerMonth - 5 * secPerMonth), "recent"⟩ : Doc),
           ⟨some (100 * secPerMonth - 7 * secPerMonth), "old"⟩,
           ⟨none, "unparsed"⟩,
           ⟨some (100 * secPerMonth + 1), "post"⟩].filter
             (qualifies (some 6) (100 * secPerMonth))).map Doc.free_text) :=
  get_concatenated_notes_spec (some 6) (100 * secPerMonth) _
    (by intro m hm; cases hm; decide)

/-- C10: a `look_back_months` of `0` is falsy in Python, so the lookback bound
is not applied at all: the output coincides with passing no lookback. -/
theorem get_concatenated_notes_zero_lookback (docs : Option (List Doc)) (anchor : Int) :
    get_concatenated_notes (some 0) docs anchor = get_concatenated_notes none docs anchor := by
  cases docs with
  | none => rfl
  | some ds =>
    show String.intercalate "\n\n" (collectNotes (some 0) anchor ds) =
      String.intercalate "\n\n" (collectNotes none anchor ds)
    have : collectNotes (some 0) anchor ds = collectNotes none anchor ds := by
      induction ds with
      | nil => rfl
      | cons doc rest ih =>
        cases hd : doc.date with
        | none => simp [collectNotes, hd, ih]
        | some d => simp [collectNotes, hd, truthyLookBack, ih]
    rw [this]

/-- The `time_key_pairs` loop of
`GetLatestNotesTransformer.get_latest_concatenated_notes`: for each document
index `i` (the loop enumerates `range(len(person[self.type]))`, here started at
an arbitrary offset so the recursion can advance it), when the date parses and
is strictly before the anchor, append `(operation_date - date, i)`. -/
def timeKeyPairsFrom (anchor : Int) : Nat → List Doc → List (Int × Nat)
  | _, [] => []
  | i, doc :: rest =>
    match doc.date with
    | none => timeKeyPairsFrom anchor (i + 1) rest
    | some d =>
      if d < anchor then
        (anchor - d, i) :: timeKeyPairsFrom anchor (i + 1) rest
      else
        timeKeyPairsFrom anchor (i + 1) rest

def timeKeyPairs (anchor : Int) (ds : List Doc) : List (Int × Nat) :=
  timeKeyPairsFrom anchor 0 ds

/-- Python tuple comparison on the `(timedelta, index)` pairs compared by
`time_key_pairs.sort()`: lexicographic. -/
def pairLE (a b : Int × Nat) : Bool :=
  decide (a.1 < b.1) || (decide (a.1 = b.1) && decide (a.2 ≤ b.2))

/-- `time_key_pairs.sort()`. The index components are pairwise distinct, so
lexicographic order is linear on the pairs, the sorted permutation is unique,
and any correct sorting algorithm models Python's stable sort. -/
def rankPairs (l : List (Int × Nat)) : List (Int × Nat) :=
  l.mergeSort pairLE

/-- `person[self.type][key]['free_text']` for a ranked `(time, key)` pair. -/
def notePayload (ds : List Doc) (p : Int × Nat) : String :=
  ((ds[p.2]?).map Doc.free_text).getD ""

/-- `GetLatestNotesTransformer.get_latest_concatenated_notes`: the `free_text`
of the first `max_notes` ranked pre-anchor documents, padded with `''` up to
length `max_notes`. -/
def get_latest_concatenated_notes (K : Nat) (docs : Option (List Doc)) (anchor : Int) :
    List String :=
  let notes : List String :=
    match docs with
    | none => []
    | some ds => ((rankPairs (timeKeyPairs anchor ds)).take K).map (notePayload ds)
  notes ++ List.replicate (K - notes.length) ""

lemma timeKeyPairsFrom_mem {anchor : Int} {p : Int × Nat} :
    ∀ {i : Nat} {ds : List Doc}, p ∈ timeKeyPairsFrom anchor i ds →
      ∃ j doc, p.2 = i + j ∧ ds[j]? = some doc ∧
        doc.date = some (anchor - p.1) ∧ anchor - p.1 < anchor := by
  intro i ds
  induction ds generalizing i with
  | nil => intro hp; simp [timeKeyPairsFrom] at hp
  | cons doc rest ih =>
    intro hp
    cases hd : doc.date with
    | none =>
      simp only [timeKeyPairsFrom, hd] at hp
      obtain ⟨j, doc', hj, hget, hdate, hlt⟩ := ih hp
      exact ⟨j + 1, doc', by omega, by simpa using hget, hdate, hlt⟩
    | some d =>
      simp only [timeKeyPairsFrom, hd] at hp
      by_cases hda : d < anchor
      · rw [if_pos hda] at hp
        rcases List.mem_cons.mp hp with hp | hp
        · refine ⟨0, doc, by simp [hp], by simp, ?_, ?_⟩
          · rw [hd, hp]; norm_num
          · rw [hp]; simpa using hda
        · obtain ⟨j, doc', hj, hget, hdate, hlt⟩ := ih hp
          exact ⟨j + 1, doc', by omega, by simpa using hget, hdate, hlt⟩
      · rw [if_neg hda] at hp
        obtain ⟨j, doc', hj, hget, hdate, hlt⟩ := ih hp
        exact ⟨j + 1, doc', by omega, by simpa using hget, hdate, hlt⟩

lemma timeKeyPairsFrom_le_snd {anchor : Int} {p : Int × Nat} {i : Nat} {ds : List Doc}
    (hp : p ∈ timeKeyPairsFrom anchor i ds) : i ≤ p.2 := by
  obtain ⟨j, doc, hj, -⟩ := timeKeyPairsFrom_mem hp
  omega

lemma timeKeyPairsFrom_snd_strict (anchor : Int) :
    ∀ (i : Nat) (ds : List Doc),
      (timeKeyPairsFrom anchor i ds).Pairwise (fun a b => a.2 < b.2) := by
  intro i ds
  induction ds generalizing i with
  | nil => simp [timeKeyPairsFrom]
  | cons doc rest ih =>
    cases hd : doc.date with
    | none => simp only [timeKeyPairsFrom, hd]; exact ih (i + 1)
    | some d =>
      simp only [timeKeyPairsFrom, hd]
      by_cases hda : d < anchor
      · rw [if_pos hda]
        refine List.Pairwise.cons ?_ (ih (i + 1))
        intro b hb
        have := timeKeyPairsFrom_le_snd hb
        omega
      · rw [if_neg hda]; exact ih (i + 1)

lemma pairLE_trans (a b c : Int × Nat) : pairLE a b → pairLE b c → pairLE a c := by
  simp only [pairLE, Bool.or_eq_true, Bool.and_eq_true, decide_eq_true_eq]
  omega

lemma pairLE_total (a b : Int × Nat) : pairLE a b || pairLE b a := by
  simp only [pairLE, Bool.or_eq_true, Bool.and_eq_true, decide_eq_true_eq]
  omega

/-- C3: the ranked order used by `get_latest_concatenated_notes` is a
permutation of the pre-anchor `(anchor - date, index)` pairs that is sorted
ascending by `anchor - date`, and at equal temporal distance earlier original
positions come first (stable ranking). -/
theorem rankPairs_sorted_stable (anchor : Int) (ds : List Doc) :
    (rankPairs (timeKeyPairs anchor ds)).Perm (timeKeyPairs anchor ds) ∧
    (rankPairs (timeKeyPairs anchor ds)).Pairwise
      (fun a b => a.1 < b.1 ∨ (a.1 = b.1 ∧ a.2 < b.2)) := by
  have hperm := List.mergeSort_perm (timeKeyPairs anchor ds) pairLE
  refine ⟨hperm, ?_⟩
  have hsorted : (rankPairs (timeKeyPairs anchor ds)).Pairwise (fun a b => pairLE a b) :=
    List.sorted_mergeSort pairLE_trans pairLE_total (timeKeyPairs anchor ds)
  have hne0 : (timeKeyPairs anchor ds).Pairwise (fun a b : Int × Nat => a.2 ≠ b.2) :=
    (timeKeyPairsFrom_snd_strict anchor 0 ds).imp (fun h => Nat.ne_of_lt h)
  have hne : (rankPairs (timeKeyPairs anchor ds)).Pairwise (fun a b : Int × Nat => a.2 ≠ b.2) :=
    (hperm.pairwise_iff (fun h => h.symm)).mpr hne0
  refine (hsorted.and hne).imp ?_
  intro a b hab
  obtain ⟨h1, h2⟩ := hab
  simp only [pairLE, Bool.or_eq_true, Bool.and_eq_true, decide_eq_true_eq] at h1
  omega

/-- One element of the `structured_data_extractor.get_encounters` tuple
`(date, class, unused, lengthOfStay, extraDiagnosisCount)`; the unused third
component is omitted. -/
structure Encounter where
  date : Int
  cls : String
  lengthOfStay : ℚ
  extraDiag : ℚ
  deriving DecidableEq

/-- The three per-encounter features appended by the loop body of
`GetEncountersFeaturesTransformer.get_encounters_features`:
inpatient indicator, length of stay when `> 1` else `0`, extra-diagnosis
count. -/
def encFeats (e : Encounter) : List ℚ :=
  [if e.cls = "Inpatient" then 1 else 0,
   if 1 < e.lengthOfStay then e.lengthOfStay else 0,
   e.extraDiag]

/-- The single accumulation loop over `tracked_encounters`: the appended
feature block in loop order, together with the `inpatients`, `total_LOS`
(only encounters with `lengthOfStay > 1`) and `total_extra_diagnoses`
accumulators. Head-first recursion; the numeric accumulators are
order-insensitive sums. -/
def encLoop : List Encounter → List ℚ × Nat × ℚ × ℚ
  | [] => ([], 0, 0, 0)
  | e :: es =>
    let r := encLoop es
    (encFeats e ++ r.1,
     (if e.cls = "Inpatient" then 1 else 0) + r.2.1,
     (if 1 < e.lengthOfStay then e.lengthOfStay else 0) + r.2.2.1,
     e.extraDiag + r.2.2.2)

/-- `encounters[:operation_index]`: the `operation_index` loop counts
encounters while `enc[0] < operation_date` and `break`s at the first one that
is not, so the slice is the longest prefix of pre-anchor encounters. -/
def preOpEncounters (anchor : Int) (encs : List Encounter) : List Encounter :=
  encs.takeWhile (fun e => decide (e.date < anchor))

/-- `tracked_encounters = encounters[::-1][:num_tracked]` with
`num_tracked = min(max_encounters, len(encounters))`. -/
def trackedEncounters (K : Nat) (anchor : Int) (encs : List Encounter) : List Encounter :=
  (preOpEncounters anchor encs).reverse.take (min K (preOpEncounters anchor encs).length)

/-- The value of the `inpatients` accumulator over a window. -/
def inpatientCount (l : List Encounter) : Nat :=
  l.countP (fun e => decide (e.cls = "Inpatient"))

/-- The value of the `total_LOS` accumulator over a window: only encounters
with `lengthOfStay > 1` contribute. -/
def totalLOS (l : List Encounter) : ℚ :=
  ((l.filter (fun e => decide (1 < e.lengthOfStay))).map Encounter.lengthOfStay).sum

/-- The value of the `total_extra_diagnoses` accumulator over a window. -/
def totalExtraDiag (l : List Encounter) : ℚ :=
  (l.map Encounter.extraDiag).sum

/-- `GetEncountersFeaturesTransformer.get_encounters_features`: the
per-encounter block, zero padding up to `3 * max_encounters`, then the three
overall features; `only_general` keeps only the final three
(`features[-3:]`). -/
def get_encounters_features (K : Nat) (onlyGeneral : Bool) (anchor : Int)
    (encs : List Encounter) : List ℚ :=
  let tracked := trackedEncounters K anchor encs
  let r := encLoop tracked
  let padded := r.1 ++
    (if tracked.length < K then List.replicate (3 * (K - tracked.length)) (0 : ℚ) else [])
  let all := padded ++
    [if 0 < tracked.length then (r.2.1 : ℚ) / (tracked.length : ℚ) else 0,
     if 0 < r.2.1 then r.2.2.1 / ((r.2.1 : Nat) : ℚ) else 0,
     if 0 < tracked.length then r.2.2.2 / (tracked.length : ℚ) else 0]
  if onlyGeneral then all.drop (all.length - 3) else all

lemma encLoop_eq (l : List Encounter) :
    encLoop l = (l.flatMap encFeats, inpatientCount l, totalLOS l, totalExtraDiag l) := by
  induction l with
  | nil => simp [encLoop, inpatientCount, totalLOS, totalExtraDiag]
  | cons e es ih =>
    by_cases hc : e.cls = "Inpatient" <;> by_cases hl : (1 : ℚ) < e.lengthOfStay <;>
      simp [encLoop, ih, encFeats, inpatientCount, totalLOS, totalExtraDiag,
        List.countP_cons, hc, hl, Nat.add_comm]

lemma length_flatMap_encFeats (l : List Encounter) :
    (l.flatMap encFeats).length = 3 * l.length := by
  induction l with
  | nil => simp
  | cons e es ih => simp [encFeats, ih]; omega

lemma trackedEncounters_length (K : Nat) (anchor : Int) (encs : List Encounter) :
    (trackedEncounters K anchor encs).length = min K (preOpEncounters anchor encs).length := by
  simp [trackedEncounters]

/-- The per-encounter block together with its zero padding, as a closed form:
the padding branch appends `3 * (K - len)` zeros exactly when `len < K`, and
`K - len = 0` otherwise. -/
def paddedBlock (K : Nat) (anchor : Int) (encs : List Encounter) : List ℚ :=
  (trackedEncounters K anchor encs).flatMap encFeats ++
    List.replicate (3 * (K - (trackedEncounters K anchor encs).length)) 0

/-- The three overall features of the Window Aggregator, in terms of the
independently defined accumulator values. -/
def generalTriple (tracked : List Encounter) : List ℚ :=
  [if 0 < tracked.length then (inpatientCount tracked : ℚ) / (tracked.length : ℚ) else 0,
   if 0 < inpatientCount tracked then totalLOS tracked / (inpatientCount tracked : ℚ) else 0,
   if 0 < tracked.length then totalExtraDiag tracked / (tracked.length : ℚ) else 0]

lemma paddedBlock_length (K : Nat) (anchor : Int) (encs : List Encounter) :
    (paddedBlock K anchor encs).length = 3 * K := by
  have h1 := length_flatMap_encFeats (trackedEncounters K anchor encs)
  have h2 : (trackedEncounters K anchor encs).length ≤ K := by
    rw [trackedEncounters_length]; omega
  simp only [paddedBlock, List.length_append, h1, List.length_replicate]
  omega

lemma get_encounters_features_eq (K : Nat) (og : Bool) (anchor : Int)
    (encs : List Encounter) :
    get_encounters_features K og anchor encs =
      (if og then [] else paddedBlock K anchor encs) ++
        generalTriple (trackedEncounters K anchor encs) := by
  have h2 : (trackedEncounters K anchor encs).length ≤ K := by
    rw [trackedEncounters_length]; omega
  unfold get_encounters_features
  simp only [encLoop_eq]
  have hpadded :
      ((trackedEncounters K anchor encs).flatMap encFeats ++
        (if (trackedEncounters K anchor encs).length < K then
          List.replicate (3 * (K - (trackedEncounters K anchor encs).length)) (0 : ℚ)
        else [])) = paddedBlock K anchor encs := by
    unfold paddedBlock
    by_cases hlt : (trackedEncounters K anchor encs).length < K
    · rw [if_pos hlt]
    · rw [if_neg hlt]
      have : K - (trackedEncounters K anchor encs).length = 0 := by omega
      rw [this]
      simp
  simp only [hpadded]
  cases og with
  | false =>
    simp only [Bool.false_eq_true, if_false]
    rfl
  | true =>
    simp only [if_true]
    show List.drop
        ((paddedBlock K anchor encs ++ generalTriple (trackedEncounters K anchor encs)).length - 3)
        (paddedBlock K anchor encs ++ generalTriple (trackedEncounters K anchor encs)) =
      [] ++ generalTriple (trackedEncounters K anchor encs)
    have hlen : (paddedBlock K anchor encs ++
        generalTriple (trackedEncounters K anchor encs)).length - 3 =
        (paddedBlock K anchor encs).length := by
      simp [generalTriple]
    rw [hlen, List.drop_left]
    simp

/-- C1: every event that enters a selected/tracked window is dated strictly
before the anchor: for the notes path, every ranked `(time, key)` pair taken by
`get_latest_concatenated_notes` points at a document whose parsed date is
strictly before the anchor; for the encounters path, under the assumption that
`get_encounters` returns encounters sorted ascending by date, every tracked
encounter is dated strictly before the anchor (the prefix scan stops at the
first encounter with `date ≥ anchor`). -/
theorem selected_events_pre_anchor (K : Nat) (anchor : Int) (ds : List Doc)
    (encs : List Encounter) (hs : encs.Pairwise (fun a b => a.date ≤ b.date)) :
    (∀ p ∈ (rankPairs (timeKeyPairs anchor ds)).take K,
        ∃ doc, ds[p.2]? = some doc ∧ ∃ d, doc.date = some d ∧ d < anchor) ∧
    (∀ e ∈ trackedEncounters K anchor encs, e.date < anchor) := by
  constructor
  · intro p hp
    have hp1 : p ∈ rankPairs (timeKeyPairs anchor ds) := List.mem_of_mem_take hp
    have hp2 : p ∈ timeKeyPairs anchor ds :=
      (List.mergeSort_perm (timeKeyPairs anchor ds) pairLE).mem_iff.mp hp1
    obtain ⟨j, doc, hj, hget, hdate, hlt⟩ := timeKeyPairsFrom_mem hp2
    refine ⟨doc, ?_, anchor - p.1, hdate, hlt⟩
    simpa [show p.2 = j by omega] using hget
  · intro e he
    have h1 : e ∈ (preOpEncounters anchor encs).reverse :=
      List.mem_of_mem_take he
    have h2 : e ∈ preOpEncounters anchor encs := List.mem_reverse.mp h1
    have h3 := List.mem_takeWhile_imp h2
    simpa using h3

/-- Witness for C1: a sorted two-encounter history and a two-document note
collection at a concrete anchor. -/
theorem selected_events_pre_anchor_witness :
    (∀ p ∈ (rankPairs (timeKeyPairs 1000 [⟨some 500, "a"⟩, ⟨none, "b"⟩])).take 2,
        ∃ doc, ([(⟨some 500, "a"⟩ : Doc), ⟨none, "b"⟩])[p.2]? = some doc ∧
          ∃ d, doc.date = some d ∧ d < 1000) ∧
    (∀ e ∈ trackedEncounters 2 1000 [⟨100, "Inpatient", 3, 1⟩, ⟨2000, "Outpatient", 0, 0⟩],
        e.date < 1000) :=
  selected_events_pre_anchor 2 1000 [⟨some 500, "a"⟩, ⟨none, "b"⟩]
    [⟨100, "Inpatient", 3, 1⟩, ⟨2000, "Outpatient", 0, 0⟩] (by decide)

/-- C4: both fixed-width outputs have exactly their configured width, with the
payloads of the ranked events in the leading slots and neutral placeholders
(empty strings, zero triples) appended strictly after them: the notes vector
has length `max_notes`, and the per-encounter block of the encounter feature
vector has length `3 * max_encounters`. -/
theorem fixed_width_outputs (K : Nat) (anchor : Int) (ds : List Doc)
    (encs : List Encounter) :
    (get_latest_concatenated_notes K (some ds) anchor).length = K ∧
    get_latest_concatenated_notes K (some ds) anchor =
      ((rankPairs (timeKeyPairs anchor ds)).take K).map (notePayload ds) ++
        List.replicate (K - min K (timeKeyPairs anchor ds).length) "" ∧
    ((get_encounters_features K false anchor encs).take (3 * K)).length = 3 * K ∧
    (get_encounters_features K false anchor encs).take (3 * K) =
      (trackedEncounters K anchor encs).flatMap encFeats ++
        List.replicate (3 * (K - min K (preOpEncounters anchor encs).length)) 0 := by
  have hnlen : (((rankPairs (timeKeyPairs anchor ds)).take K).map (notePayload ds)).length =
      min K (timeKeyPairs anchor ds).length := by
    simp [rankPairs]
  have henc : (get_encounters_features K false anchor encs).take (3 * K) =
      paddedBlock K anchor encs := by
    rw [get_encounters_features_eq]
    simp only [Bool.false_eq_true, if_false]
    rw [← paddedBlock_length K anchor encs, List.take_left]
  refine ⟨?_, ?_, ?_, ?_⟩
  · show (((rankPairs (timeKeyPairs anchor ds)).take K).map (notePayload ds) ++
      List.replicate (K - (((rankPairs (timeKeyPairs anchor ds)).take K).map
        (notePayload ds)).length) "").length = K
    rw [hnlen]
    simp only [List.length_append, hnlen, List.length_replicate]
    omega
  · show ((rankPairs (timeKeyPairs anchor ds)).take K).map (notePayload ds) ++
      List.replicate (K - (((rankPairs (timeKeyPairs anchor ds)).take K).map
        (notePayload ds)).length) "" = _
    rw [hnlen]
  · rw [henc, paddedBlock_length]
  · rw [henc]
    unfold paddedBlock
    rw [trackedEncounters_length]

/-- C5: the `averageLengthOfStay` entry of the encounter feature vector (the
second overall feature, at index `3 * max_encounters + 1`, or index `1` in
`only_general` mode) equals `total_LOS / inpatients` when `inpatients > 0` and
`0` otherwise, where `total_LOS` sums `lengthOfStay` only over tracked
encounters with `lengthOfStay > 1` while the divisor is the inpatient count:
the accumulation/divisor mismatch of the source is preserved. -/
theorem average_los_entry (K : Nat) (og : Bool) (anchor : Int)
    (encs : List Encounter) :
    (get_encounters_features K og anchor encs)[(if og then 0 else 3 * K) + 1]? =
      some (if 0 < inpatientCount (trackedEncounters K anchor encs) then
              totalLOS (trackedEncounters K anchor encs) /
                (inpatientCount (trackedEncounters K anchor encs) : ℚ)
            else 0) := by
  rw [get_encounters_features_eq]
  cases og with
  | true => simp [generalTriple]
  | false =>
    simp only [Bool.false_eq_true, if_false]
    rw [List.getElem?_append_right (by rw [paddedBlock_length]; omega)]
    rw [paddedBlock_length]
    simp [generalTriple]

/-- C6: the `inpatientRatio` entry of the encounter feature vector (the first
overall feature, at index `3 * max_encounters`, or index `0` in `only_general`
mode) equals `inpatients / len(tracked_encounters)` when the tracked window is
non-empty and `0` otherwise, and this value always lies in `[0, 1]`. -/
theorem inpatient_fraction_entry (K : Nat) (og : Bool) (anchor : Int)
    (encs : List Encounter) :
    (get_encounters_features K og anchor encs)[if og then 0 else 3 * K]? =
      some (if 0 < (trackedEncounters K anchor encs).length then
              (inpatientCount (trackedEncounters K anchor encs) : ℚ) /
                ((trackedEncounters K anchor encs).length : ℚ)
            else 0) ∧
    (0 : ℚ) ≤ (if 0 < (trackedEncounters K anchor encs).length then
        (inpatientCount (trackedEncounters K anchor encs) : ℚ) /
          ((trackedEncounters K anchor encs).length : ℚ)
      else 0) ∧
    (if 0 < (trackedEncounters K anchor encs).length then
        (inpatientCount (trackedEncounters K anchor encs) : ℚ) /
          ((trackedEncounters K anchor encs).length : ℚ)
      else 0) ≤ 1 := by
  refine ⟨?_, ?_, ?_⟩
  · rw [get_encounters_features_eq]
    cases og with
    | true => simp [generalTriple]
    | false =>
      simp only [Bool.false_eq_true, if_false]
      rw [List.getElem?_append_right (by simp [paddedBlock_length])]
      rw [paddedBlock_length]
      simp [generalTriple]
  · by_cases hpos : 0 < (trackedEncounters K anchor encs).length
    · rw [if_pos hpos]
      positivity
    · rw [if_neg hpos]
  · by_cases hpos : 0 < (trackedEncounters K anchor encs).length
    · rw [if_pos hpos]
      rw [div_le_one (by exact_mod_cast hpos)]
      exact_mod_cast List.countP_le_length _
    · rw [if_neg hpos]
      norm_num

/-- The fitted state of `MultiDocTfidfTransformer`: the recorded document-slot
count `vec_size`, and the fitted vectorizer's per-document transform `tf`
(sklearn's `TfidfVectorizer` is an external collaborator; a fitted vectorizer
maps each document string to one dense numeric vector whose length is the
global vocabulary size). -/
structure MultiDocTfidf where
  vec_size : Nat
  tf : String → List ℚ

/-- `MultiDocTfidfTransformer.fit`: records `vec_size = len(X[0])` from the
first training subject; the vocabulary fitting itself is external and its
outcome is the given `tf`. -/
def MultiDocTfidf.fit (tf : String → List ℚ) (X : List (List String)) : MultiDocTfidf :=
  { vec_size := (X.headD []).length, tf := tf }

/-- `MultiDocTfidfTransformer.transform` for one subject:
`self.tfidf.transform(x).toarray().flatten()` is the row-major flattening of
one tfidf row per document slot, i.e. the concatenation of `tf` applied to
each slot. -/
def MultiDocTfidf.transform (t : MultiDocTfidf) (x : List String) : List ℚ :=
  x.flatMap t.tf

/-- Counterexample to C7 as stated: with a fitted vocabulary of size 1
(`tf` always returns a singleton vector) and `vec_size = 2` recorded from the
first training subject, transforming a subject with a single document slot
yields total length `1`, not `vocabularySize * vec_size = 2`. -/
theorem multiDocTfidf_length_counterexample :
    ¬ ((MultiDocTfidf.fit (fun _ => [(0 : ℚ)]) [["a", "b"]]).transform ["c"]).length =
        1 * (MultiDocTfidf.fit (fun _ => [(0 : ℚ)]) [["a", "b"]]).vec_size := by
  decide

/-- C7 (amended): for a fitted `MultiDocTfidfTransformer` whose vectorizer
emits vectors of the vocabulary size `V`, the transform of a subject is the
concatenation of one tfidf vector per document slot, and for every subject
whose document-slot count equals the recorded `vec_size` the total length is
exactly `V * vec_size`. -/
theorem multiDocTfidf_transform_length (tf : String → List ℚ) (V : Nat)
    (hV : ∀ s, (tf s).length = V) (X : List (List String)) (x : List String)
    (hx : x.length = (MultiDocTfidf.fit tf X).vec_size) :
    (MultiDocTfidf.fit tf X).transform x = x.flatMap tf ∧
    ((MultiDocTfidf.fit tf X).transform x).length =
      V * (MultiDocTfidf.fit tf X).vec_size := by
  refine ⟨rfl, ?_⟩
  have hflat : ∀ l : List String, (l.flatMap tf).length = V * l.length := by
    intro l
    induction l with
    | nil => simp
    | cons a l ih => simp [ih, hV a]; ring
  show (x.flatMap tf).length = V * (MultiDocTfidf.fit tf X).vec_size
  rw [hflat, hx]

/-- Witness for C7 (amended) at a concrete input: vocabulary size 2, one
document slot per subject. -/
theorem multiDocTfidf_transform_length_witness :
    (MultiDocTfidf.fit (fun _ => [(0 : ℚ), 1]) [["a"]]).transform ["b"] =
        (["b"].flatMap (fun _ => [(0 : ℚ), 1])) ∧
    ((MultiDocTfidf.fit (fun _ => [(0 : ℚ), 1]) [["a"]]).transform ["b"]).length =
      2 * (MultiDocTfidf.fit (fun _ => [(0 : ℚ), 1]) [["a"]]).vec_size :=
  multiDocTfidf_transform_length (fun _ => [(0 : ℚ), 1]) 2 (fun _ => rfl)
    [["a"]] ["b"] rfl

/-- `GetLabsHistoryDictTransformer.get_labs_history`: for each lab in the
external `get_lab_history_before_date` result (an association list of test
name to per-threshold flags, in dictionary iteration order) and each index `i`
into `time_thresholds_months`, insert the `"<lab>_H_<t>"` and `"<lab>_L_<t>"`
keys with 1/0 flag indicators. Out-of-range indexing (impossible when every
flag list has one flag per threshold) is modelled by `getD` defaults. -/
def get_labs_history (thresholds : List Nat) (labHistory : List (String × List String)) :
    List (String × Nat) :=
  labHistory.flatMap (fun p =>
    (List.range thresholds.length).flatMap (fun i =>
      [(p.1 ++ "_H_" ++ toString (thresholds.getD i 0), if p.2.getD i "" = "H" then 1 else 0),
       (p.1 ++ "_L_" ++ toString (thresholds.getD i 0), if p.2.getD i "" = "L" then 1 else 0)]))

lemma range_flatMap_getD_eq_zip {β : Type} (g : Nat → String → List β) :
    ∀ (ts : List Nat) (fs : List String), fs.length = ts.length →
      (List.range ts.length).flatMap (fun i => g (ts.getD i 0) (fs.getD i "")) =
        (ts.zip fs).flatMap (fun tf => g tf.1 tf.2) := by
  intro ts
  induction ts with
  | nil => intro fs h; simp
  | cons t ts ih =>
    intro fs h
    cases fs with
    | nil => simp at h
    | cons f fs =>
      have hlen : fs.length = ts.length := by simpa using h
      rw [List.length_cons, List.range_succ_eq_map]
      simp only [List.flatMap_cons, List.getD_cons_zero, List.zip_cons_cons]
      rw [List.flatMap_map]
      have : (fun i => g ((t :: ts).getD (i + 1) 0) ((f :: fs).getD (i + 1) "")) =
          (fun i => g (ts.getD i 0) (fs.getD i "")) := by
        funext i
        simp [List.getD_cons_succ]
      rw [show (fun a => g ((t :: ts).getD (Nat.succ a) 0) ((f :: fs).getD (Nat.succ a) "")) =
          (fun i => g (ts.getD i 0) (fs.getD i "")) from this]
      rw [ih fs hlen]

/-- C8: when every lab's flag list has one flag per threshold,
`get_labs_history` emits, per lab and per threshold `t` (in order), exactly the
pairs `("<lab>_H_<t>", 1 iff the flag at `t` is `"H"`)` and
`("<lab>_L_<t>", 1 iff the flag at `t` is `"L"`)`. -/
theorem get_labs_history_spec (thresholds : List Nat)
    (labHistory : List (String × List String))
    (h : ∀ p ∈ labHistory, p.2.length = thresholds.length) :
    get_labs_history thresholds labHistory =
      labHistory.flatMap (fun p =>
        (thresholds.zip p.2).flatMap (fun tf =>
          [(p.1 ++ "_H_" ++ toString tf.1, if tf.2 = "H" then 1 else 0),
           (p.1 ++ "_L_" ++ toString tf.1, if tf.2 = "L" then 1 else 0)])) := by
  unfold get_labs_history
  induction labHistory with
  | nil => simp
  | cons p ps ih =>
    simp only [List.flatMap_cons]
    rw [range_flatMap_getD_eq_zip
        (fun t f => [(p.1 ++ "_H_" ++ toString t, if f = "H" then 1 else 0),
                     (p.1 ++ "_L_" ++ toString t, if f = "L" then 1 else 0)])
        thresholds p.2 (h p (List.mem_cons_self p ps))]
    rw [ih (fun q hq => h q (List.mem_cons_of_mem p hq))]

/-- Witness for C8 at a concrete input: thresholds `[3, 6]`, lab `"NA"` with
flags `["H", "L"]` and lab `"K"` with flags `["N", "H"]`. -/
theorem get_labs_history_spec_witness :
    get_labs_history [3, 6] [("NA", ["H", "L"]), ("K", ["N", "H"])] =
      [("NA", ["H", "L"]), ("K", ["N", "H"])].flatMap (fun p =>
        (([3, 6] : List Nat).zip p.2).flatMap (fun tf =>
          [(p.1 ++ "_H_" ++ toString tf.1, if tf.2 = "H" then 1 else 0),
           (p.1 ++ "_L_" ++ toString tf.1, if tf.2 = "L" then 1 else 0)])) :=
  get_labs_history_spec [3, 6] [("NA", ["H", "L"]), ("K", ["N", "H"])] (by decide)

/-- `GetLatestLabValuesTransformer.get_latest_lab_values`: the external
`get_recent_lab_values` result is an association list of test name to a
`(unused, rawValue)` pair; `parseFloat` models the Python `float(...)` builtin
(`none` when it would raise). A lab is emitted only when its raw value is
truthy (a non-empty string); `try: float(raw) except: raw` keeps the parsed
number when parsing succeeds and the raw text otherwise. -/
def get_latest_lab_values (parseFloat : String → Option ℚ) :
    List (String × String × String) → List (String × (ℚ ⊕ String))
  | [] => []
  | (lab, u, raw) :: rest =>
    if raw ≠ "" then
      (lab, match parseFloat raw with
            | some q => Sum.inl q
            | none => Sum.inr raw) :: get_latest_lab_values parseFloat rest
    else
      get_latest_lab_values parseFloat rest

/-- Counterexample to C9 as stated: a lab test present in the latest-values
lookup whose stored raw value is the empty string is dropped from the output
entirely (the `if latest_labs[lab][1]:` truthiness guard), rather than being
kept as its raw textual value as the claim requires for any value that does
not parse as a number. -/
theorem get_latest_lab_values_counterexample :
    ¬ ("X", Sum.inr "") ∈ get_latest_lab_values (fun _ => none) [("X", "", "")] := by
  have h : get_latest_lab_values (fun _ => none) [("X", "", "")] = [] := rfl
  rw [h]
  exact List.not_mem_nil _

/-- C9 (amended): `get_latest_lab_values` keeps exactly the labs whose stored
raw value is non-empty (truthy), in order, mapping each to the parsed numeric
value when `float(...)` succeeds and to the unchanged raw text otherwise,
without error; labs with an empty raw value are omitted. -/
theorem get_latest_lab_values_spec (parseFloat : String → Option ℚ)
    (latest : List (String × String × String)) :
    get_latest_lab_values parseFloat latest =
      (latest.filter (fun e => e.2.2 != "")).map (fun e =>
        (e.1, match parseFloat e.2.2 with
              | some q => Sum.inl q
              | none => Sum.inr e.2.2)) := by
  induction latest with
  | nil => rfl
  | cons e rest ih =>
    obtain ⟨lab, u, raw⟩ := e
    by_cases hr : raw = ""
    · subst hr
      simp [get_latest_lab_values, ih]
    · rw [show ((lab, u, raw) :: rest).filter (fun e => e.2.2 != "") =
          (lab, u, raw) :: rest.filter (fun e => e.2.2 != "") by
        simp [List.filter_cons, bne_iff_ne, hr]]
      rw [List.map_cons]
      show (if raw ≠ "" then _ else _) = _
      rw [if_pos hr, ih]

end NLPCRT
